import Mathlib

/-!
Verification of the `rc-slice2` crate: a shallow embedding of `RcSlice`
(src/rc.rs, specialised to reference-counted slices `Rc<[T]>`) and
`ArcSlice` (src/arc.rs, generic over an `RcSliceContainer`), together with
the container implementations of src/lib.rs (`[T]`, `Vec<T>`,
`SmallVec<T>`).

Modelling conventions:
* `usize` is modelled as `Nat`; saturating/checked arithmetic carries an
  explicit bound `USIZE_MAX = 2^64 - 1`.
* A shared handle `Rc<T>` / `Arc<T>` is modelled as the container value
  plus an allocation identifier (`Handle`).  Reference counts (strong and
  weak) are not stored in the handle; operations whose behaviour depends
  on them (`get_mut`, `shrink`) take the counts of the handle's
  allocation at the moment of the call as explicit arguments.
* Fallible operations return `Option`; mutating operations return the
  updated view next to the result, and return the view unchanged on the
  failure paths, mirroring the `&mut self`-style receivers of the source.
-/

set_option autoImplicit false

universe u

/-! ### usize arithmetic -/

/-- The largest `usize` value on a 64-bit target. -/
def USIZE_MAX : Nat := 2 ^ 64 - 1

/-- Rust `usize::saturating_add`. -/
def satAdd (a b : Nat) : Nat := min (a + b) USIZE_MAX

/-- Rust `usize::checked_add`: `none` on overflow. -/
def checkedAdd (a b : Nat) : Option Nat :=
  if a + b ≤ USIZE_MAX then some (a + b) else none

/-- Rust `usize::checked_sub`: `none` on underflow. -/
def checkedSub (a b : Nat) : Option Nat :=
  if b ≤ a then some (a - b) else none

/-! ### Ranges and slices of lists -/

/-- One bound of a Rust `RangeBounds<usize>` value (`core::ops::Bound`). -/
inductive RBound : Type where
  | included (x : Nat)
  | excluded (x : Nat)
  | unbounded
deriving DecidableEq, Repr

/-- Rust `slice::get(start..end)`: `some` of the sub-slice when
`start ≤ end ≤ len`, `none` otherwise. -/
def sliceGet {α : Type u} (l : List α) (s e : Nat) : Option (List α) :=
  if s ≤ e ∧ e ≤ l.length then some ((l.drop s).take (e - s)) else none

/-- Rust slice indexing `&l[s..e]` (the source only evaluates it when the
range is known in bounds; on an out-of-bounds range the source panics,
which every theorem below rules out through the view invariant). -/
def sliceIndex {α : Type u} (l : List α) (s e : Nat) : List α :=
  (l.drop s).take (e - s)

/-- Resolution of the start bound, as in `RcSlice::new` / `ArcSlice::new`
and `change_range` (all four duplicate the same `match`):
excluded `x` ↦ `min(x.saturating_add(1), len)`, included `x` ↦
`min(x, len)`, unbounded ↦ `0`. -/
def resolveStart (len : Nat) : RBound → Nat
  | RBound.excluded x => min (satAdd x 1) len
  | RBound.included x => min x len
  | RBound.unbounded => 0

/-- Resolution of the end bound, as in `RcSlice::new` / `ArcSlice::new`
and `change_range`: excluded `x` ↦ `min(x, len)`, included `x` ↦
`min(x.saturating_add(1), len)`, unbounded ↦ `len`. -/
def resolveEnd (len : Nat) : RBound → Nat
  | RBound.excluded x => min x len
  | RBound.included x => min (satAdd x 1) len
  | RBound.unbounded => len

/-! ### Handles and views -/

/-- A shared handle (`Rc<T>` / `Arc<T>`): the container value together
with the identity of the allocation it points to.  `Rc::ptr_eq` compares
the `allocId` fields. -/
structure Handle (C : Type u) : Type u where
  container : C
  allocId : Nat
deriving DecidableEq, Repr

/-- The view struct shared by `RcSlice` (src/rc.rs) and `ArcSlice`
(src/arc.rs): a handle to the underlying container plus the half-open
range `[start, end_)`.  The source field `end` is a Lean keyword and is
rendered `end_`. -/
structure Slice (C : Type u) : Type u where
  underlying : Handle C
  start : Nat
  end_ : Nat
deriving DecidableEq, Repr

/-- `RcSlice<T>` of src/rc.rs: its `underlying` is always `Rc<[T]>`,
modelled as a handle to a `List α`. -/
abbrev RcSlice (α : Type u) : Type u := Slice (List α)

/-- `ArcSlice<T>` of src/arc.rs: generic over the container type. -/
abbrev ArcSlice (C : Type u) : Type u := Slice C

/-- The `RcSliceContainer` trait of src/lib.rs: the capability contract a
container must satisfy to be viewable.  `get_mut` has the same
availability and contents as `get` in this value-level model, so a single
`get` field serves both. -/
structure Container (C : Type u) (α : Type u) : Type u where
  isShrinkable : Bool
  len : C → Nat
  get : C → Nat → Nat → Option (List α)
  shrinkToRange : C → Nat → Nat → Option (C × Nat × Nat)

/-- The view invariant documented on both structs:
`start ≤ end ≤ underlying.len()`. -/
def SliceInv {C α : Type u} (K : Container C α) (it : Slice C) : Prop :=
  it.start ≤ it.end_ ∧ it.end_ ≤ K.len it.underlying.container

instance {C α : Type u} (K : Container C α) (it : Slice C) :
    Decidable (SliceInv K it) := by
  unfold SliceInv; infer_instance

/-! ### RcSlice operations (src/rc.rs) -/

/-- `RcSlice::new`: resolve both bounds against `underlying.len()`, then
set `end` to `max(start, end)`. -/
def rcNew {α : Type u} (underlying : Handle (List α)) (sb eb : RBound) :
    RcSlice α :=
  let start := resolveStart underlying.container.length sb
  let end_ := resolveEnd underlying.container.length eb
  ⟨underlying, start, max start end_⟩

/-- `RcSlice::len`: `end - start`, computed from the view's own fields. -/
def rcLen {α : Type u} (it : RcSlice α) : Nat := it.end_ - it.start

/-- `RcSlice::is_empty`: `end == start`. -/
def rcIsEmpty {α : Type u} (it : RcSlice α) : Bool :=
  decide (it.end_ = it.start)

/-- `RcSlice::split_at`: asserts `mid ≤ len` (modelled as `none`, the
panic), then builds the two halves with `new` over the same handle. -/
def rcSplitAt {α : Type u} (it : RcSlice α) (mid : Nat) :
    Option (RcSlice α × RcSlice α) :=
  if mid ≤ rcLen it then
    let realMid := it.start + mid
    some (rcNew it.underlying (RBound.included it.start) (RBound.excluded realMid),
      rcNew it.underlying (RBound.included realMid) (RBound.excluded it.end_))
  else none

/-- `RcSlice::try_split_at`: `split_at` behind a `mid ≤ len` check. -/
def rcTrySplitAt {α : Type u} (it : RcSlice α) (mid : Nat) :
    Option (RcSlice α × RcSlice α) :=
  if mid ≤ rcLen it then rcSplitAt it mid else none

/-- `RcSlice::split_off_before`: `cut = start.checked_add(index)?`; if
`cut ≤ end`, the view becomes `[cut, end)` and the front `[start, cut)`
is returned.  Result is `(returned view, updated receiver)`. -/
def rcSplitOffBefore {α : Type u} (it : RcSlice α) (index : Nat) :
    Option (RcSlice α) × RcSlice α :=
  match checkedAdd it.start index with
  | none => (none, it)
  | some cut =>
    if cut ≤ it.end_ then
      (some ⟨it.underlying, it.start, cut⟩, ⟨it.underlying, cut, it.end_⟩)
    else (none, it)

/-- `RcSlice::split_off_after`: symmetric to `split_off_before`; the view
becomes `[start, cut)` and the back `[cut, end)` is returned. -/
def rcSplitOffAfter {α : Type u} (it : RcSlice α) (index : Nat) :
    Option (RcSlice α) × RcSlice α :=
  match checkedAdd it.start index with
  | none => (none, it)
  | some cut =>
    if cut ≤ it.end_ then
      (some ⟨it.underlying, cut, it.end_⟩, ⟨it.underlying, it.start, cut⟩)
    else (none, it)

/-- `RcSlice::advance`: `cut = start.checked_add(incr)?`; if `cut ≤ end`,
return the shed prefix `&underlying[start..cut]` and move `start` to
`cut`; otherwise `None` with the view unchanged. -/
def rcAdvance {α : Type u} (it : RcSlice α) (incr : Nat) :
    Option (List α) × RcSlice α :=
  match checkedAdd it.start incr with
  | none => (none, it)
  | some cut =>
    if cut ≤ it.end_ then
      (some (sliceIndex it.underlying.container it.start cut),
        ⟨it.underlying, cut, it.end_⟩)
    else (none, it)

/-- `RcSlice::saturating_advance`:
`cut = min(start.saturating_add(incr), end)`; always succeeds, returning
`&underlying[start..cut]`. -/
def rcSaturatingAdvance {α : Type u} (it : RcSlice α) (incr : Nat) :
    List α × RcSlice α :=
  let cut := min (satAdd it.start incr) it.end_
  (sliceIndex it.underlying.container it.start cut,
    ⟨it.underlying, cut, it.end_⟩)

/-- `RcSlice::retract`: `cut = end.checked_sub(decr)?`; if `cut ≥ start`,
return the shed suffix `&underlying[cut..end]` and move `end` to `cut`. -/
def rcRetract {α : Type u} (it : RcSlice α) (decr : Nat) :
    Option (List α) × RcSlice α :=
  match checkedSub it.end_ decr with
  | none => (none, it)
  | some cut =>
    if it.start ≤ cut then
      (some (sliceIndex it.underlying.container cut it.end_),
        ⟨it.underlying, it.start, cut⟩)
    else (none, it)

/-- `RcSlice::saturating_retract`:
`cut = max(end.saturating_sub(decr), start)`; always succeeds.  On `Nat`,
truncated subtraction is exactly `usize::saturating_sub`. -/
def rcSaturatingRetract {α : Type u} (it : RcSlice α) (decr : Nat) :
    List α × RcSlice α :=
  let cut := max (it.end_ - decr) it.start
  (sliceIndex it.underlying.container cut it.end_,
    ⟨it.underlying, it.start, cut⟩)

/-- `RcSlice::change_range`: re-resolve both bounds against the
underlying length, then `start = min(start, end)`; returns the concrete
range next to the updated view. -/
def rcChangeRange {α : Type u} (it : RcSlice α) (sb eb : RBound) :
    (Nat × Nat) × RcSlice α :=
  let len := it.underlying.container.length
  let start0 := resolveStart len sb
  let end_ := resolveEnd len eb
  let start := min start0 end_
  ((start, end_), ⟨it.underlying, start, end_⟩)

/-- `RcSlice::get_mut`: `Rc::get_mut` yields the container exactly when
there are no other `Rc` or `Weak` pointers to the allocation
(strong count 1 and weak count 0, per its documentation); the view then
exposes `&mut underlying[start..end]`.  The counts at the moment of the
call are explicit arguments. -/
def rcGetMut {α : Type u} (strong weak : Nat) (it : RcSlice α) :
    Option (List α) :=
  if strong = 1 ∧ weak = 0 then
    some (sliceIndex it.underlying.container it.start it.end_)
  else none

/-- `RcSlice::ptr_eq`: same allocation and identical `start`/`end`. -/
def rcPtrEq {α : Type u} (a b : RcSlice α) : Bool :=
  decide (a.underlying.allocId = b.underlying.allocId ∧
    a.start = b.start ∧ a.end_ = b.end_)

/-- `RcSlice::bounds_range` (and the deprecated `bounds`). -/
def rcBoundsRange {α : Type u} (it : RcSlice α) : Nat × Nat :=
  (it.start, it.end_)

/-- `Deref`/`AsRef` for `RcSlice`: `&underlying[start..end]`. -/
def rcDeref {α : Type u} (it : RcSlice α) : List α :=
  sliceIndex it.underlying.container it.start it.end_

/-- `PartialEq for RcSlice`: `self.deref() == other.deref()` — the viewed
elements. -/
def rcEq {α : Type u} [DecidableEq α] (a b : RcSlice α) : Bool :=
  decide (rcDeref a = rcDeref b)

/-- `Hash for RcSlice` feeds `Hash::hash_slice(self.deref())`: the hash
input is the viewed element sequence. -/
def rcHashInput {α : Type u} (it : RcSlice α) : List α := rcDeref it

/-- `Default for RcSlice`: a full view of `Rc::new([])`.  The allocation
identifier of the fresh handle is supplied by the environment. -/
def rcDefault (α : Type u) (aid : Nat) : RcSlice α :=
  rcNew ⟨[], aid⟩ RBound.unbounded RBound.unbounded

/-! ### ArcSlice operations (src/arc.rs), generic over the container -/

/-- `ArcSlice::new`. -/
def arcNew {C α : Type u} (K : Container C α) (underlying : Handle C)
    (sb eb : RBound) : ArcSlice C :=
  let start := resolveStart (K.len underlying.container) sb
  let end_ := resolveEnd (K.len underlying.container) eb
  ⟨underlying, start, max start end_⟩

/-- `ArcSlice::len`. -/
def arcLen {C : Type u} (it : ArcSlice C) : Nat := it.end_ - it.start

/-- `ArcSlice::is_empty`. -/
def arcIsEmpty {C : Type u} (it : ArcSlice C) : Bool :=
  decide (it.end_ = it.start)

/-- `ArcSlice::split_at` (the assert's panic is `none`). -/
def arcSplitAt {C α : Type u} (K : Container C α) (it : ArcSlice C)
    (mid : Nat) : Option (ArcSlice C × ArcSlice C) :=
  if mid ≤ arcLen it then
    let realMid := it.start + mid
    some (arcNew K it.underlying (RBound.included it.start) (RBound.excluded realMid),
      arcNew K it.underlying (RBound.included realMid) (RBound.excluded it.end_))
  else none

/-- `ArcSlice::try_split_at`. -/
def arcTrySplitAt {C α : Type u} (K : Container C α) (it : ArcSlice C)
    (mid : Nat) : Option (ArcSlice C × ArcSlice C) :=
  if mid ≤ arcLen it then arcSplitAt K it mid else none

/-- `ArcSlice::split_off_before`. -/
def arcSplitOffBefore {C : Type u} (it : ArcSlice C) (index : Nat) :
    Option (ArcSlice C) × ArcSlice C :=
  match checkedAdd it.start index with
  | none => (none, it)
  | some cut =>
    if cut ≤ it.end_ then
      (some ⟨it.underlying, it.start, cut⟩, ⟨it.underlying, cut, it.end_⟩)
    else (none, it)

/-- `ArcSlice::split_off_after`. -/
def arcSplitOffAfter {C : Type u} (it : ArcSlice C) (index : Nat) :
    Option (ArcSlice C) × ArcSlice C :=
  match checkedAdd it.start index with
  | none => (none, it)
  | some cut =>
    if cut ≤ it.end_ then
      (some ⟨it.underlying, cut, it.end_⟩, ⟨it.underlying, it.start, cut⟩)
    else (none, it)

/-- `ArcSlice::advance`: like `RcSlice::advance` but the shed prefix goes
through `underlying.get(start..cut)?`, whose failure also returns `None`
before any mutation. -/
def arcAdvance {C α : Type u} (K : Container C α) (it : ArcSlice C)
    (incr : Nat) : Option (List α) × ArcSlice C :=
  match checkedAdd it.start incr with
  | none => (none, it)
  | some cut =>
    if cut ≤ it.end_ then
      match K.get it.underlying.container it.start cut with
      | none => (none, it)
      | some shed => (some shed, ⟨it.underlying, cut, it.end_⟩)
    else (none, it)

/-- `ArcSlice::saturating_advance`: the source unwraps
`underlying.get(start..cut)`; the `none` result models that panic (shown
unreachable under the invariant). -/
def arcSaturatingAdvance {C α : Type u} (K : Container C α)
    (it : ArcSlice C) (incr : Nat) : Option (List α × ArcSlice C) :=
  let cut := min (satAdd it.start incr) it.end_
  match K.get it.underlying.container it.start cut with
  | some shed => some (shed, ⟨it.underlying, cut, it.end_⟩)
  | none => none

/-- `ArcSlice::retract`. -/
def arcRetract {C α : Type u} (K : Container C α) (it : ArcSlice C)
    (decr : Nat) : Option (List α) × ArcSlice C :=
  match checkedSub it.end_ decr with
  | none => (none, it)
  | some cut =>
    if it.start ≤ cut then
      match K.get it.underlying.container cut it.end_ with
      | none => (none, it)
      | some shed => (some shed, ⟨it.underlying, it.start, cut⟩)
    else (none, it)

/-- `ArcSlice::saturating_retract` (unwrap modelled as for
`saturating_advance`). -/
def arcSaturatingRetract {C α : Type u} (K : Container C α)
    (it : ArcSlice C) (decr : Nat) : Option (List α × ArcSlice C) :=
  let cut := max (it.end_ - decr) it.start
  match K.get it.underlying.container cut it.end_ with
  | some shed => some (shed, ⟨it.underlying, it.start, cut⟩)
  | none => none

/-- `ArcSlice::change_range`. -/
def arcChangeRange {C α : Type u} (K : Container C α) (it : ArcSlice C)
    (sb eb : RBound) : (Nat × Nat) × ArcSlice C :=
  let len := K.len it.underlying.container
  let start0 := resolveStart len sb
  let end_ := resolveEnd len eb
  let start := min start0 end_
  ((start, end_), ⟨it.underlying, start, end_⟩)

/-- `ArcSlice::get_mut`:
`Arc::get_mut(&mut it.underlying).map(|s| s.get_mut(start..end)).flatten()`.
`Arc::get_mut` succeeds exactly when there are no other `Arc` or `Weak`
pointers (strong count 1, weak count 0); the container lookup then keeps
its own `Option`. -/
def arcGetMut {C α : Type u} (K : Container C α) (strong weak : Nat)
    (it : ArcSlice C) : Option (List α) :=
  if strong = 1 ∧ weak = 0 then
    K.get it.underlying.container it.start it.end_
  else none

/-- `ArcSlice::ptr_eq`. -/
def arcPtrEq {C : Type u} (a b : ArcSlice C) : Bool :=
  decide (a.underlying.allocId = b.underlying.allocId ∧
    a.start = b.start ∧ a.end_ = b.end_)

/-- `ArcSlice::bounds_range`. -/
def arcBoundsRange {C : Type u} (it : ArcSlice C) : Nat × Nat :=
  (it.start, it.end_)

/-- `Deref`/`AsRef` for `ArcSlice`:
`underlying.get(start..end).unwrap()` (the unwrap is in bounds under the
invariant; `getD []` stands for it). -/
def arcDeref {C α : Type u} (K : Container C α) (it : ArcSlice C) :
    List α :=
  (K.get it.underlying.container it.start it.end_).getD []

/-- `PartialEq for ArcSlice`: `self.underlying == other.underlying` — the
WHOLE underlying containers are compared (via `Arc`'s `PartialEq`, which
compares the pointed-to values); `start` and `end` are ignored. -/
def arcEq {C : Type u} [DecidableEq C] (a b : ArcSlice C) : Bool :=
  decide (a.underlying.container = b.underlying.container)

/-- `Ord for ArcSlice` likewise delegates to the whole containers:
`self.underlying.cmp(&other.underlying)`.  Its input is the container
pair, not the viewed elements. -/
def arcCmpInput {C : Type u} (a b : ArcSlice C) : C × C :=
  (a.underlying.container, b.underlying.container)

/-- `Hash for ArcSlice` feeds `Hash::hash_slice(self.deref())`: the hash
input is the viewed element sequence. -/
def arcHashInput {C α : Type u} (K : Container C α) (it : ArcSlice C) :
    List α :=
  arcDeref K it

/-- `ArcSlice::shrink`.  The source swaps the handle out against a
temporary `Arc::new(T::default())`, calls `Arc::try_unwrap` on the
original (which succeeds exactly when its strong count is 1, outstanding
weak references notwithstanding), lets the container shrink itself, and
installs a freshly allocated handle on success; on failure the original
handle is swapped back unchanged.  `strong` is the strong count of the
view's allocation at the call and `freshId` the identity of the fresh
allocation. -/
def arcShrink {C α : Type u} (K : Container C α) (strong freshId : Nat)
    (it : ArcSlice C) : Bool × ArcSlice C :=
  if K.isShrinkable = false then (false, it)
  else if it.start = 0 ∧ it.end_ = K.len it.underlying.container then
    (false, it)
  else if strong = 1 then
    let c := it.underlying.container
    match K.shrinkToRange c it.start it.end_ with
    | some (c', s', e') => (true, ⟨⟨c', freshId⟩, s', e'⟩)
    | none => (true, ⟨⟨c, freshId⟩, it.start, it.end_⟩)
  else (false, it)

/-- `Default for ArcSlice`: a full view of `Arc::new(T::default())`. -/
def arcDefault {C α : Type u} (K : Container C α) (dflt : C) (aid : Nat) :
    ArcSlice C :=
  arcNew K ⟨dflt, aid⟩ RBound.unbounded RBound.unbounded

/-! ### Container implementations (src/lib.rs) -/

/-- The counter-based `retain` used by the `Vec` and `SmallVec`
implementations of `shrink_container_to_range`: keep exactly the elements
whose running index `cur_index` lies in `keep_range = [s, e)`. -/
def retainRange {α : Type u} (s e : Nat) : Nat → List α → List α
  | _, [] => []
  | i, x :: xs =>
    if s ≤ i ∧ i < e then x :: retainRange s e (i + 1) xs
    else retainRange s e (i + 1) xs

/-- `<Vec<T> as RcSliceContainer>::shrink_container_to_range`:
`truncate(keep_range.end)`, `retain` by index, `shrink_to_fit` (capacity
only — no effect on the value), `Some(0..len)`. -/
def vecShrinkToRange {α : Type u} (l : List α) (s e : Nat) :
    Option (List α × Nat × Nat) :=
  let t := l.take e
  let kept := retainRange s e 0 t
  some (kept, 0, kept.length)

/-- `impl RcSliceContainer for [T]` (also `Box<[T]>`): not shrinkable;
`shrink_container_to_range` is `unimplemented!()` and never called (the
`shrink` short-circuit fires first), so its model value is irrelevant. -/
def listC (α : Type u) : Container (List α) α :=
  ⟨false, List.length, sliceGet, fun _ _ _ => none⟩

/-- `impl RcSliceContainer for Vec<T>`: shrinkable. -/
def vecC (α : Type u) : Container (List α) α :=
  ⟨true, List.length, sliceGet, vecShrinkToRange⟩

/-- A `SmallVec` value: its elements plus whether it has spilled to the
heap.  The inline capacity is a parameter of the container instance. -/
structure SmallVec (α : Type u) : Type u where
  data : List α
  spilled : Bool
deriving DecidableEq, Repr

/-- `<SmallVec<T> as RcSliceContainer>::shrink_container_to_range`:
returns `None` without touching anything when the elements are stored
inline (`!self.spilled()`); otherwise truncate/retain as for `Vec`, with
`shrink_to_fit` moving the data back inline when the kept length fits the
inline capacity `n`. -/
def smallVecShrinkToRange {α : Type u} (n : Nat) (v : SmallVec α)
    (s e : Nat) : Option (SmallVec α × Nat × Nat) :=
  if v.spilled = false then none
  else
    let t := v.data.take e
    let kept := retainRange s e 0 t
    some (⟨kept, decide (n < kept.length)⟩, 0, kept.length)

/-- `impl RcSliceContainer for SmallVec<[T; n]>`: shrinkable. -/
def smallVecC {α : Type u} (n : Nat) : Container (SmallVec α) α :=
  ⟨true, fun v => v.data.length, fun v s e => sliceGet v.data s e,
    smallVecShrinkToRange n⟩

/-- The documented contract of `RcSliceContainer` (src/lib.rs), relative
to an abstraction of the container as its element list: `len` and `get`
are those of the element list, and a successful
`shrink_container_to_range` returns a range that points to the same
elements as `keep_range` did before. -/
structure LawfulContainer {C α : Type u} (K : Container C α)
    (toList : C → List α) : Prop where
  len_eq : ∀ c, K.len c = (toList c).length
  get_eq : ∀ c s e, K.get c s e = sliceGet (toList c) s e
  shrink_sound : ∀ c s e c' s' e', s ≤ e → e ≤ K.len c →
    K.shrinkToRange c s e = some (c', s', e') →
    sliceGet (toList c') s' e' = sliceGet (toList c) s e

/-! ### Operation sequences -/

/-- One public call on a tracked view.  The environment supplies the
reference counts observed at the moment of a `get_mut`/`shrink` call and
the identity of the allocation a successful `shrink` creates.  The
operations that produce a second view (`split_at`, `try_split_at`,
`split_off_before`, `split_off_after`) come in two variants continuing
with either of the two views, so every view reachable by a call sequence
is tracked by some sequence. -/
inductive SliceOp : Type where
  | cloneOp
  | splitAtLow (mid : Nat)
  | splitAtHigh (mid : Nat)
  | trySplitAtLow (mid : Nat)
  | trySplitAtHigh (mid : Nat)
  | splitOffBeforeKeep (index : Nat)
  | splitOffBeforeTake (index : Nat)
  | splitOffAfterKeep (index : Nat)
  | splitOffAfterTake (index : Nat)
  | advanceOp (incr : Nat)
  | saturatingAdvanceOp (incr : Nat)
  | retractOp (decr : Nat)
  | saturatingRetractOp (decr : Nat)
  | changeRangeOp (sb eb : RBound)
  | getMutOp (strong weak : Nat)
  | shrinkOp (strong freshId : Nat)
deriving DecidableEq, Repr

/-- Apply one public call to the tracked view.  Calls that fail (or whose
modelled panic fires) leave the tracked view unchanged, exactly as the
source leaves the receiver unchanged on every failure path. -/
def stepA {C α : Type u} (K : Container C α) (it : ArcSlice C) :
    SliceOp → ArcSlice C
  | SliceOp.cloneOp => it
  | SliceOp.splitAtLow mid =>
    match arcSplitAt K it mid with
    | some (lo, _) => lo
    | none => it
  | SliceOp.splitAtHigh mid =>
    match arcSplitAt K it mid with
    | some (_, hi) => hi
    | none => it
  | SliceOp.trySplitAtLow mid =>
    match arcTrySplitAt K it mid with
    | some (lo, _) => lo
    | none => it
  | SliceOp.trySplitAtHigh mid =>
    match arcTrySplitAt K it mid with
    | some (_, hi) => hi
    | none => it
  | SliceOp.splitOffBeforeKeep index => (arcSplitOffBefore it index).2
  | SliceOp.splitOffBeforeTake index =>
    match (arcSplitOffBefore it index).1 with
    | some front => front
    | none => it
  | SliceOp.splitOffAfterKeep index => (arcSplitOffAfter it index).2
  | SliceOp.splitOffAfterTake index =>
    match (arcSplitOffAfter it index).1 with
    | some back => back
    | none => it
  | SliceOp.advanceOp incr => (arcAdvance K it incr).2
  | SliceOp.saturatingAdvanceOp incr =>
    match arcSaturatingAdvance K it incr with
    | some (_, it') => it'
    | none => it
  | SliceOp.retractOp decr => (arcRetract K it decr).2
  | SliceOp.saturatingRetractOp decr =>
    match arcSaturatingRetract K it decr with
    | some (_, it') => it'
    | none => it
  | SliceOp.changeRangeOp sb eb => (arcChangeRange K it sb eb).2
  | SliceOp.getMutOp _ _ => it
  | SliceOp.shrinkOp strong freshId => (arcShrink K strong freshId it).2

/-! ### Helper lemmas about bound resolution and list slicing -/

theorem resolveStart_le (len : Nat) (b : RBound) : resolveStart len b ≤ len := by
  cases b <;> simp [resolveStart]

theorem resolveEnd_le (len : Nat) (b : RBound) : resolveEnd len b ≤ len := by
  cases b <;> simp [resolveEnd]

theorem sliceGet_of_le {α : Type u} {l : List α} {s e : Nat} (h1 : s ≤ e)
    (h2 : e ≤ l.length) : sliceGet l s e = some (sliceIndex l s e) := by
  simp [sliceGet, sliceIndex, h1, h2]

theorem sliceGet_eq_some {α : Type u} {l xs : List α} {s e : Nat}
    (h : sliceGet l s e = some xs) :
    s ≤ e ∧ e ≤ l.length ∧ xs = sliceIndex l s e := by
  unfold sliceGet at h
  split at h
  · rename_i hc
    refine ⟨hc.1, hc.2, ?_⟩
    injection h with h
    exact h.symm
  · cases h

theorem length_sliceIndex {α : Type u} {l : List α} {s e : Nat}
    (h2 : e ≤ l.length) : (sliceIndex l s e).length = e - s := by
  simp [sliceIndex, List.length_take, List.length_drop]
  omega

theorem sliceIndex_append {α : Type u} {l : List α} {s m e : Nat}
    (h1 : s ≤ m) (h2 : m ≤ e) :
    sliceIndex l s m ++ sliceIndex l m e = sliceIndex l s e := by
  unfold sliceIndex
  have hd : l.drop m = (l.drop s).drop (m - s) := by
    rw [List.drop_drop]
    congr 1
    omega
  rw [hd, ← List.take_add]
  congr 1
  omega

theorem sliceIndex_take {α : Type u} {l : List α} {s e k : Nat}
    (h : k ≤ e - s) : (sliceIndex l s e).take k = sliceIndex l s (s + k) := by
  unfold sliceIndex
  rw [List.take_take]
  congr 1
  omega

theorem sliceIndex_drop {α : Type u} {l : List α} {s e k : Nat} :
    (sliceIndex l s e).drop k = sliceIndex l (s + k) e := by
  unfold sliceIndex
  rw [List.drop_take, List.drop_drop]
  congr 1
  omega

theorem retainRange_eq {α : Type u} (s e : Nat) : ∀ (xs : List α) (i : Nat),
    retainRange s e i xs = (xs.take (e - i)).drop (s - i)
  | [], i => by simp [retainRange]
  | x :: xs, i => by
    unfold retainRange
    by_cases hc : s ≤ i ∧ i < e
    · rw [if_pos hc, retainRange_eq s e xs (i + 1)]
      have h1 : e - i = (e - (i + 1)) + 1 := by omega
      have h2 : s - i = 0 := by omega
      have h3 : s - (i + 1) = 0 := by omega
      rw [h1, h2, h3, List.take_succ_cons, List.drop_zero, List.drop_zero]
    · rw [if_neg hc, retainRange_eq s e xs (i + 1)]
      by_cases he : e ≤ i
      · have h1 : e - i = 0 := by omega
        have h2 : e - (i + 1) = 0 := by omega
        simp [h1, h2]
      · have h1 : e - i = (e - (i + 1)) + 1 := by omega
        have h2 : s - i = (s - (i + 1)) + 1 := by omega
        rw [h1, h2, List.take_succ_cons, List.drop_succ_cons]

theorem retainRange_take {α : Type u} (l : List α) (s e : Nat) :
    retainRange s e 0 (l.take e) = sliceIndex l s e := by
  rw [retainRange_eq, Nat.sub_zero, Nat.sub_zero, List.take_take, min_self,
    List.drop_take]
  rfl

/-! ### The concrete containers satisfy the documented contract -/

theorem lawful_listC (α : Type u) : LawfulContainer (listC α) id := by
  constructor
  · intro c; rfl
  · intro c s e; rfl
  · intro c s e c' s' e' _ _ h
    simp [listC] at h

theorem lawful_vecC (α : Type u) : LawfulContainer (vecC α) id := by
  constructor
  · intro c; rfl
  · intro c s e; rfl
  · intro c s e c' s' e' hse hel h
    simp only [vecC, vecShrinkToRange, Option.some.injEq, Prod.mk.injEq] at h
    obtain ⟨hc, hs, he⟩ := h
    subst hc hs he
    rw [retainRange_take, id_eq, id_eq, sliceGet_of_le hse hel]
    have hlen : (sliceIndex c s e).length = e - s := length_sliceIndex hel
    rw [sliceGet_of_le (Nat.zero_le _) (Nat.le_refl _)]
    congr 1
    simp [sliceIndex]

theorem lawful_smallVecC (α : Type u) (n : Nat) :
    LawfulContainer (smallVecC (α := α) n) SmallVec.data := by
  constructor
  · intro c; rfl
  · intro c s e; rfl
  · intro c s e c' s' e' hse hel h
    simp only [smallVecC, smallVecShrinkToRange] at h
    split at h
    · cases h
    · simp only [Option.some.injEq, Prod.mk.injEq] at h
      obtain ⟨hc, hs, he⟩ := h
      subst hc hs he
      rw [retainRange_take, sliceGet_of_le hse hel]
      rw [sliceGet_of_le (Nat.zero_le _) (Nat.le_refl _)]
      congr 1
      simp [sliceIndex]

/-! ### Invariant preservation -/

theorem sliceInv_arcNew {C α : Type u} (K : Container C α) (h : Handle C)
    (sb eb : RBound) : SliceInv K (arcNew K h sb eb) := by
  have h1 := resolveStart_le (K.len h.container) sb
  have h2 := resolveEnd_le (K.len h.container) eb
  simp [SliceInv, arcNew]
  omega

theorem sliceInv_rcNew {α : Type u} (h : Handle (List α)) (sb eb : RBound) :
    SliceInv (listC α) (rcNew h sb eb) := by
  have h1 := resolveStart_le h.container.length sb
  have h2 := resolveEnd_le h.container.length eb
  simp [SliceInv, rcNew, listC]
  omega

theorem sliceInv_arcSplitAt {C α : Type u} {K : Container C α}
    {it lo hi : ArcSlice C} {mid : Nat}
    (h : arcSplitAt K it mid = some (lo, hi)) :
    SliceInv K lo ∧ SliceInv K hi := by
  unfold arcSplitAt at h
  split at h
  · simp only [Option.some.injEq, Prod.mk.injEq] at h
    obtain ⟨hlo, hhi⟩ := h
    subst hlo hhi
    exact ⟨sliceInv_arcNew K it.underlying _ _, sliceInv_arcNew K it.underlying _ _⟩
  · cases h

theorem sliceInv_arcTrySplitAt {C α : Type u} {K : Container C α}
    {it lo hi : ArcSlice C} {mid : Nat}
    (h : arcTrySplitAt K it mid = some (lo, hi)) :
    SliceInv K lo ∧ SliceInv K hi := by
  unfold arcTrySplitAt at h
  split at h
  · exact sliceInv_arcSplitAt h
  · cases h

theorem sliceInv_arcSplitOffBefore {C α : Type u} {K : Container C α}
    {it : ArcSlice C} (index : Nat) (hinv : SliceInv K it) :
    SliceInv K (arcSplitOffBefore it index).2 ∧
      ∀ front, (arcSplitOffBefore it index).1 = some front →
        SliceInv K front := by
  obtain ⟨h1, h2⟩ := hinv
  unfold arcSplitOffBefore
  split
  · exact ⟨⟨h1, h2⟩, by intro front h; cases h⟩
  · rename_i cut hadd
    have hsc : it.start ≤ cut := by
      unfold checkedAdd at hadd
      split at hadd
      · injection hadd with hadd
        omega
      · cases hadd
    split
    · rename_i hcut
      refine ⟨⟨hcut, h2⟩, ?_⟩
      intro front h
      injection h with h
      subst h
      exact ⟨hsc, le_trans hcut h2⟩
    · exact ⟨⟨h1, h2⟩, by intro front h; cases h⟩

theorem sliceInv_arcSplitOffAfter {C α : Type u} {K : Container C α}
    {it : ArcSlice C} (index : Nat) (hinv : SliceInv K it) :
    SliceInv K (arcSplitOffAfter it index).2 ∧
      ∀ back, (arcSplitOffAfter it index).1 = some back →
        SliceInv K back := by
  obtain ⟨h1, h2⟩ := hinv
  unfold arcSplitOffAfter
  split
  · exact ⟨⟨h1, h2⟩, by intro back h; cases h⟩
  · rename_i cut hadd
    have hsc : it.start ≤ cut := by
      unfold checkedAdd at hadd
      split at hadd
      · injection hadd with hadd
        omega
      · cases hadd
    split
    · rename_i hcut
      refine ⟨⟨hsc, le_trans hcut h2⟩, ?_⟩
      intro back h
      injection h with h
      subst h
      exact ⟨hcut, h2⟩
    · exact ⟨⟨h1, h2⟩, by intro back h; cases h⟩

theorem sliceInv_arcAdvance {C α : Type u} {K : Container C α}
    {it : ArcSlice C} (incr : Nat) (hinv : SliceInv K it) :
    SliceInv K (arcAdvance K it incr).2 := by
  obtain ⟨h1, h2⟩ := hinv
  unfold arcAdvance
  split
  · exact ⟨h1, h2⟩
  · split
    · rename_i hcut
      split
      · exact ⟨h1, h2⟩
      · exact ⟨hcut, h2⟩
    · exact ⟨h1, h2⟩

theorem sliceInv_arcSaturatingAdvance {C α : Type u} {K : Container C α}
    {it it' : ArcSlice C} {shed : List α} {incr : Nat}
    (hinv : SliceInv K it)
    (h : arcSaturatingAdvance K it incr = some (shed, it')) :
    SliceInv K it' := by
  obtain ⟨h1, h2⟩ := hinv
  unfold arcSaturatingAdvance at h
  dsimp only at h
  split at h
  · simp only [Option.some.injEq, Prod.mk.injEq] at h
    obtain ⟨-, h⟩ := h
    subst h
    exact ⟨min_le_right _ _, h2⟩
  · cases h

theorem sliceInv_arcRetract {C α : Type u} {K : Container C α}
    {it : ArcSlice C} (decr : Nat) (hinv : SliceInv K it) :
    SliceInv K (arcRetract K it decr).2 := by
  obtain ⟨h1, h2⟩ := hinv
  unfold arcRetract
  split
  · exact ⟨h1, h2⟩
  · rename_i cut hsub
    have hce : cut ≤ it.end_ := by
      unfold checkedSub at hsub
      split at hsub
      · injection hsub with hsub
        omega
      · cases hsub
    split
    · rename_i hcut
      split
      · exact ⟨h1, h2⟩
      · exact ⟨hcut, le_trans hce h2⟩
    · exact ⟨h1, h2⟩

theorem sliceInv_arcSaturatingRetract {C α : Type u} {K : Container C α}
    {it it' : ArcSlice C} {shed : List α} {decr : Nat}
    (hinv : SliceInv K it)
    (h : arcSaturatingRetract K it decr = some (shed, it')) :
    SliceInv K it' := by
  obtain ⟨h1, h2⟩ := hinv
  unfold arcSaturatingRetract at h
  dsimp only at h
  split at h
  · simp only [Option.some.injEq, Prod.mk.injEq] at h
    obtain ⟨-, h⟩ := h
    subst h
    refine ⟨le_max_right _ _, ?_⟩
    show max (it.end_ - decr) it.start ≤ K.len it.underlying.container
    omega
  · cases h

theorem sliceInv_arcChangeRange {C α : Type u} {K : Container C α}
    {it : ArcSlice C} (sb eb : RBound) :
    SliceInv K (arcChangeRange K it sb eb).2 := by
  exact ⟨min_le_right _ _, resolveEnd_le _ _⟩

theorem sliceInv_arcShrink {C α : Type u} {K : Container C α}
    {toList : C → List α} (hK : LawfulContainer K toList)
    {it : ArcSlice C} (strong freshId : Nat) (hinv : SliceInv K it) :
    SliceInv K (arcShrink K strong freshId it).2 := by
  obtain ⟨h1, h2⟩ := hinv
  unfold arcShrink
  split
  · exact ⟨h1, h2⟩
  · split
    · exact ⟨h1, h2⟩
    · split
      · dsimp only
        split
        · rename_i c' s' e' hm
          have hs := hK.shrink_sound _ _ _ _ _ _ h1 h2 hm
          rw [sliceGet_of_le h1 (hK.len_eq _ ▸ h2)] at hs
          obtain ⟨ha, hb, -⟩ := sliceGet_eq_some hs
          exact ⟨ha, (hK.len_eq c').symm ▸ hb⟩
        · exact ⟨h1, h2⟩
      · exact ⟨h1, h2⟩

theorem sliceInv_stepA {C α : Type u} {K : Container C α}
    {toList : C → List α} (hK : LawfulContainer K toList)
    {it : ArcSlice C} (op : SliceOp) (hinv : SliceInv K it) :
    SliceInv K (stepA K it op) := by
  cases op with
  | cloneOp => exact hinv
  | splitAtLow mid =>
    simp only [stepA]
    cases hm : arcSplitAt K it mid with
    | none => exact hinv
    | some p =>
      obtain ⟨lo, hi⟩ := p
      exact (sliceInv_arcSplitAt hm).1
  | splitAtHigh mid =>
    simp only [stepA]
    cases hm : arcSplitAt K it mid with
    | none => exact hinv
    | some p =>
      obtain ⟨lo, hi⟩ := p
      exact (sliceInv_arcSplitAt hm).2
  | trySplitAtLow mid =>
    simp only [stepA]
    cases hm : arcTrySplitAt K it mid with
    | none => exact hinv
    | some p =>
      obtain ⟨lo, hi⟩ := p
      exact (sliceInv_arcTrySplitAt hm).1
  | trySplitAtHigh mid =>
    simp only [stepA]
    cases hm : arcTrySplitAt K it mid with
    | none => exact hinv
    | some p =>
      obtain ⟨lo, hi⟩ := p
      exact (sliceInv_arcTrySplitAt hm).2
  | splitOffBeforeKeep index => exact (sliceInv_arcSplitOffBefore index hinv).1
  | splitOffBeforeTake index =>
    simp only [stepA]
    cases hm : (arcSplitOffBefore it index).1 with
    | none => exact hinv
    | some front => exact (sliceInv_arcSplitOffBefore index hinv).2 front hm
  | splitOffAfterKeep index => exact (sliceInv_arcSplitOffAfter index hinv).1
  | splitOffAfterTake index =>
    simp only [stepA]
    cases hm : (arcSplitOffAfter it index).1 with
    | none => exact hinv
    | some back => exact (sliceInv_arcSplitOffAfter index hinv).2 back hm
  | advanceOp incr => exact sliceInv_arcAdvance incr hinv
  | saturatingAdvanceOp incr =>
    simp only [stepA]
    cases hm : arcSaturatingAdvance K it incr with
    | none => exact hinv
    | some p =>
      obtain ⟨shed, it'⟩ := p
      exact sliceInv_arcSaturatingAdvance hinv hm
  | retractOp decr => exact sliceInv_arcRetract decr hinv
  | saturatingRetractOp decr =>
    simp only [stepA]
    cases hm : arcSaturatingRetract K it decr with
    | none => exact hinv
    | some p =>
      obtain ⟨shed, it'⟩ := p
      exact sliceInv_arcSaturatingRetract hinv hm
  | changeRangeOp sb eb => exact sliceInv_arcChangeRange sb eb
  | getMutOp strong weak => exact hinv
  | shrinkOp strong freshId => exact sliceInv_arcShrink hK strong freshId hinv

theorem sliceInv_foldl {C α : Type u} {K : Container C α}
    {toList : C → List α} (hK : LawfulContainer K toList) :
    ∀ (ops : List SliceOp) (it : ArcSlice C), SliceInv K it →
      SliceInv K (ops.foldl (stepA K) it)
  | [], _, hinv => hinv
  | op :: ops, it, hinv =>
    sliceInv_foldl hK ops (stepA K it op) (sliceInv_stepA hK op hinv)

/-! ### Dereferencing under the invariant -/

theorem arcDeref_eq {C α : Type u} {K : Container C α} {toList : C → List α}
    (hK : LawfulContainer K toList) {it : ArcSlice C}
    (hinv : SliceInv K it) :
    arcDeref K it = sliceIndex (toList it.underlying.container) it.start it.end_ := by
  unfold arcDeref
  rw [hK.get_eq, sliceGet_of_le hinv.1 (hK.len_eq _ ▸ hinv.2)]
  rfl

/-! ### Claims -/

/-- Claim C1: the spec says value equality, ordering and hashing of a view
depend only on the viewed elements `underlying[start..end]`.  This holds
for `RcSlice` but not for `ArcSlice`: `ArcSlice`'s `PartialEq`/`Ord`
compare the WHOLE underlying containers and ignore `start`/`end`.  At the
failing input — two `ArcSlice` views of the same `Vec` `[1, 2]`, one over
`0..1` and one over `0..2` — the code's `==` returns `true` although the
viewed sequences `[1]` and `[1, 2]` differ, and the two equal views hash
differently (their hash inputs are the viewed sequences), violating the
`Eq`/`Hash` and `Borrow` contracts the impls opt into. -/
theorem c1_arc_eq_ignores_viewed_range :
    arcEq (C := List Nat) ⟨⟨[1, 2], 7⟩, 0, 1⟩ ⟨⟨[1, 2], 7⟩, 0, 2⟩ = true ∧
    arcDeref (vecC Nat) ⟨⟨[1, 2], 7⟩, 0, 1⟩ = [1] ∧
    arcDeref (vecC Nat) ⟨⟨[1, 2], 7⟩, 0, 2⟩ = [1, 2] ∧
    arcHashInput (vecC Nat) ⟨⟨[1, 2], 7⟩, 0, 1⟩ ≠
      arcHashInput (vecC Nat) ⟨⟨[1, 2], 7⟩, 0, 2⟩ := by
  decide

/-- Claim C2: the spec says `RcSlice` and `ArcSlice` are functionally
identical.  They are not: on the same underlying contents `[1, 2]`, the
same ranges `0..1` and `0..2`, and the same handle-sharing state,
`RcSlice`'s `==` (viewed elements) returns `false` while `ArcSlice`'s
`==` (whole containers) returns `true`. -/
theorem c2_rc_arc_eq_disagree :
    rcEq (α := Nat) ⟨⟨[1, 2], 7⟩, 0, 1⟩ ⟨⟨[1, 2], 7⟩, 0, 2⟩ = false ∧
    arcEq (C := List Nat) ⟨⟨[1, 2], 7⟩, 0, 1⟩ ⟨⟨[1, 2], 7⟩, 0, 2⟩ = true := by
  decide

/-- Claim C3 (counterexample): the claim says `new` finishes with
`start = min(start, end)`, so an inverted range yields the empty view
`end..end` at the resolved end.  The code instead finishes with
`end = max(start, end)`: on a length-6 buffer with range `5..2`
(resolved start 5, resolved end 2) it constructs the view `5..5`, the
empty view at the resolved START, not `2..2`. -/
theorem c3_new_inverted_range_counterexample :
    resolveStart 6 (RBound.included 5) = 5 ∧
    resolveEnd 6 (RBound.excluded 2) = 2 ∧
    rcBoundsRange (rcNew (⟨[0, 1, 2, 3, 4, 5], 0⟩ : Handle (List Nat))
      (RBound.included 5) (RBound.excluded 2)) = (5, 5) ∧
    rcBoundsRange (rcNew (⟨[0, 1, 2, 3, 4, 5], 0⟩ : Handle (List Nat))
      (RBound.included 5) (RBound.excluded 2)) ≠ (2, 2) := by
  decide

/-- Claim C3 (amended): `new(handle, range)` resolves the start bound as
0 / min(x, length) / min(x+1, length) (saturating) and the end bound as
length / min(x, length) / min(x+1, length) (saturating), keeps the
resolved start unchanged and applies a final `end = max(start, end)`;
whenever the resolved start exceeds the resolved end the constructed view
is the empty range positioned at the resolved START (`start..start`); the
construction is total (never panics or fails) and always establishes the
view invariant.  This holds for `RcSlice::new` and for `ArcSlice::new`
over any container. -/
theorem c3_new_total_clamp :
    (∀ (α : Type u) (h : Handle (List α)) (sb eb : RBound),
      (rcNew h sb eb).underlying = h ∧
      (rcNew h sb eb).start = resolveStart h.container.length sb ∧
      (rcNew h sb eb).end_ = max (resolveStart h.container.length sb)
        (resolveEnd h.container.length eb) ∧
      SliceInv (listC α) (rcNew h sb eb) ∧
      (resolveEnd h.container.length eb < resolveStart h.container.length sb →
        rcBoundsRange (rcNew h sb eb) = (resolveStart h.container.length sb,
          resolveStart h.container.length sb))) ∧
    (∀ (C α : Type u) (K : Container C α) (h : Handle C) (sb eb : RBound),
      (arcNew K h sb eb).underlying = h ∧
      (arcNew K h sb eb).start = resolveStart (K.len h.container) sb ∧
      (arcNew K h sb eb).end_ = max (resolveStart (K.len h.container) sb)
        (resolveEnd (K.len h.container) eb) ∧
      SliceInv K (arcNew K h sb eb) ∧
      (resolveEnd (K.len h.container) eb < resolveStart (K.len h.container) sb →
        arcBoundsRange (arcNew K h sb eb) = (resolveStart (K.len h.container) sb,
          resolveStart (K.len h.container) sb))) := by
  constructor
  · intro α h sb eb
    refine ⟨rfl, rfl, rfl, sliceInv_rcNew h sb eb, ?_⟩
    intro hlt
    unfold rcBoundsRange rcNew
    dsimp only
    congr 1
    omega
  · intro C α K h sb eb
    refine ⟨rfl, rfl, rfl, sliceInv_arcNew K h sb eb, ?_⟩
    intro hlt
    unfold arcBoundsRange arcNew
    dsimp only
    congr 1
    omega

/-- Witness for the amended C3 at a concrete input: on a length-3 buffer
with range `5..1` the resolved start 3 exceeds the resolved end 1 and the
view is the empty range `3..3`. -/
theorem c3_new_total_clamp_witness :
    rcBoundsRange (rcNew (⟨[0, 1, 2], 0⟩ : Handle (List Nat))
      (RBound.included 5) (RBound.excluded 1)) = (3, 3) :=
  (c3_new_total_clamp.1 Nat ⟨[0, 1, 2], 0⟩ (RBound.included 5)
    (RBound.excluded 1)).2.2.2.2 (by decide)

/-- Claim C5 (counterexample): the claim says `get_mut` succeeds exactly
when the shared-ownership (strong) reference count is one.  With strong
count 1 but one outstanding weak reference, `Rc::get_mut`/`Arc::get_mut`
return `None` (they require that there be no other `Rc`/`Arc` or `Weak`
pointers), so the view's `get_mut` fails although the strong count is
exactly one. -/
theorem c5_weak_blocks_get_mut :
    rcGetMut 1 1 (⟨⟨[1, 2], 0⟩, 0, 2⟩ : RcSlice Nat) = none ∧
    arcGetMut (vecC Nat) 1 1 ⟨⟨[1, 2], 0⟩, 0, 2⟩ = none := by
  decide

/-- Claim C10: when `ArcSlice::shrink` runs on a shrinkable container
whose `shrink_container_to_range` declines (returns `None`, as `SmallVec`
does while its elements are stored inline), with a view that does not
span the whole container and a uniquely owned handle, the call still
returns `true`: the view's range and the container's contents are left
unchanged and a fresh handle (new allocation identity) to the unmodified
container is installed, so a `true` return does not mean memory was
reclaimed. -/
theorem c10_smallvec_decline_reports_success (α : Type u) (n : Nat)
    (v : SmallVec α) (aid s e strong freshId : Nat)
    (hsp : v.spilled = false)
    (hfull : ¬(s = 0 ∧ e = v.data.length))
    (hstrong : strong = 1) :
    arcShrink (smallVecC n) strong freshId ⟨⟨v, aid⟩, s, e⟩ =
      (true, ⟨⟨v, freshId⟩, s, e⟩) := by
  subst hstrong
  unfold arcShrink
  simp [smallVecC, smallVecShrinkToRange, hfull, hsp]

/-- Witness for C10 at a concrete input: an inline (non-spilled)
`SmallVec` `[2, 4, 6, 8, 10]` with inline capacity 8, viewed at `1..4`,
uniquely owned: `shrink` reports `true` and changes nothing but the
handle identity. -/
theorem c10_smallvec_decline_reports_success_witness :
    arcShrink (smallVecC 8) 1 9
      (⟨⟨⟨[2, 4, 6, 8, 10], false⟩, 0⟩, 1, 4⟩ : ArcSlice (SmallVec Nat)) =
      (true, ⟨⟨⟨[2, 4, 6, 8, 10], false⟩, 9⟩, 1, 4⟩) :=
  c10_smallvec_decline_reports_success Nat 8 ⟨[2, 4, 6, 8, 10], false⟩ 0 1 4 1 9
    rfl (by decide) rfl

theorem rcNew_inbounds {α : Type u} (u : Handle (List α)) {s e : Nat}
    (hs : s ≤ u.container.length) (he : e ≤ u.container.length)
    (hse : s ≤ e) :
    rcNew u (RBound.included s) (RBound.excluded e) = ⟨u, s, e⟩ := by
  unfold rcNew resolveStart resolveEnd
  dsimp only
  rw [Nat.min_eq_left hs, Nat.min_eq_left he, Nat.max_eq_right hse]

theorem arcNew_inbounds {C α : Type u} (K : Container C α) (u : Handle C)
    {s e : Nat} (hs : s ≤ K.len u.container) (he : e ≤ K.len u.container)
    (hse : s ≤ e) :
    arcNew K u (RBound.included s) (RBound.excluded e) = ⟨u, s, e⟩ := by
  unfold arcNew resolveStart resolveEnd
  dsimp only
  rw [Nat.min_eq_left hs, Nat.min_eq_left he, Nat.max_eq_right hse]

/-- Claim C7: for every view `v` satisfying the invariant and every
`mid ≤ len(v)`, `split_at(v, mid)` succeeds and returns `(low, high)`
where `low` is the view `[start, start+mid)` and `high` the view
`[start+mid, end)` over the SAME handle (so both share `v`'s underlying
allocation, as `ptr_eq` observes), the concatenation of the viewed
elements of `low` and `high` is exactly `v`'s viewed elements, `low`
views `v`'s indices `[0, mid)` and `high` views `[mid, len)`; `v` itself
and the underlying container are untouched (the operation constructs new
views only).  Proven for `RcSlice::split_at` and generically for
`ArcSlice::split_at`. -/
theorem c7_split_conservation :
    (∀ (α : Type u) (it : RcSlice α) (mid : Nat),
      SliceInv (listC α) it → mid ≤ rcLen it →
      rcSplitAt it mid = some (⟨it.underlying, it.start, it.start + mid⟩,
        ⟨it.underlying, it.start + mid, it.end_⟩) ∧
      rcDeref (⟨it.underlying, it.start, it.start + mid⟩ : RcSlice α) ++
        rcDeref (⟨it.underlying, it.start + mid, it.end_⟩ : RcSlice α) =
        rcDeref it ∧
      rcDeref (⟨it.underlying, it.start, it.start + mid⟩ : RcSlice α) =
        (rcDeref it).take mid ∧
      rcDeref (⟨it.underlying, it.start + mid, it.end_⟩ : RcSlice α) =
        (rcDeref it).drop mid) ∧
    (∀ (C α : Type u) (K : Container C α) (toList : C → List α),
      LawfulContainer K toList → ∀ (it : ArcSlice C) (mid : Nat),
      SliceInv K it → mid ≤ arcLen it →
      arcSplitAt K it mid = some (⟨it.underlying, it.start, it.start + mid⟩,
        ⟨it.underlying, it.start + mid, it.end_⟩) ∧
      arcDeref K ⟨it.underlying, it.start, it.start + mid⟩ ++
        arcDeref K ⟨it.underlying, it.start + mid, it.end_⟩ = arcDeref K it ∧
      arcDeref K ⟨it.underlying, it.start, it.start + mid⟩ =
        (arcDeref K it).take mid ∧
      arcDeref K ⟨it.underlying, it.start + mid, it.end_⟩ =
        (arcDeref K it).drop mid) := by
  constructor
  · intro α it mid hinv hmid
    have h1 := hinv.1
    have h2 : it.end_ ≤ it.underlying.container.length := hinv.2
    unfold rcLen at hmid
    refine ⟨?_, ?_, ?_, ?_⟩
    · unfold rcSplitAt rcLen
      rw [if_pos (by omega)]
      dsimp only
      rw [rcNew_inbounds it.underlying (by omega) (by omega) (by omega),
        rcNew_inbounds it.underlying (by omega) (by omega) (by omega)]
    · show sliceIndex it.underlying.container it.start (it.start + mid) ++
        sliceIndex it.underlying.container (it.start + mid) it.end_ =
        sliceIndex it.underlying.container it.start it.end_
      exact sliceIndex_append (Nat.le_add_right _ _) (by omega)
    · show sliceIndex it.underlying.container it.start (it.start + mid) =
        (sliceIndex it.underlying.container it.start it.end_).take mid
      exact (sliceIndex_take (by omega)).symm
    · show sliceIndex it.underlying.container (it.start + mid) it.end_ =
        (sliceIndex it.underlying.container it.start it.end_).drop mid
      exact sliceIndex_drop.symm
  · intro C α K toList hK it mid hinv hmid
    have h1 := hinv.1
    have h2 := hinv.2
    have h2' : it.end_ ≤ (toList it.underlying.container).length :=
      hK.len_eq _ ▸ h2
    unfold arcLen at hmid
    have hlo : SliceInv K ⟨it.underlying, it.start, it.start + mid⟩ :=
      ⟨Nat.le_add_right _ _,
        show it.start + mid ≤ K.len it.underlying.container by omega⟩
    have hhi : SliceInv K ⟨it.underlying, it.start + mid, it.end_⟩ :=
      ⟨show it.start + mid ≤ it.end_ by omega, h2⟩
    have dlo : arcDeref K ⟨it.underlying, it.start, it.start + mid⟩ =
        sliceIndex (toList it.underlying.container) it.start (it.start + mid) :=
      arcDeref_eq hK hlo
    have dhi : arcDeref K ⟨it.underlying, it.start + mid, it.end_⟩ =
        sliceIndex (toList it.underlying.container) (it.start + mid) it.end_ :=
      arcDeref_eq hK hhi
    have dit : arcDeref K it =
        sliceIndex (toList it.underlying.container) it.start it.end_ :=
      arcDeref_eq hK hinv
    refine ⟨?_, ?_, ?_, ?_⟩
    · unfold arcSplitAt arcLen
      rw [if_pos (by omega)]
      dsimp only
      rw [arcNew_inbounds K it.underlying (by omega) (by omega) (by omega),
        arcNew_inbounds K it.underlying (by omega) (by omega) (by omega)]
    · rw [dlo, dhi, dit]
      exact sliceIndex_append (Nat.le_add_right _ _) (by omega)
    · rw [dlo, dit]
      exact (sliceIndex_take (by omega)).symm
    · rw [dhi, dit]
      exact sliceIndex_drop.symm

/-- Witness for C7 at a concrete input: the spec's own example — buffer
`[2, 4, 6, 8, 10]`, view `1..4` (elements `[4, 6, 8]`), split at 2. -/
theorem c7_split_conservation_witness :
    rcSplitAt (⟨⟨[2, 4, 6, 8, 10], 0⟩, 1, 4⟩ : RcSlice Nat) 2 =
      some (⟨⟨[2, 4, 6, 8, 10], 0⟩, 1, 3⟩, ⟨⟨[2, 4, 6, 8, 10], 0⟩, 3, 4⟩) ∧
    rcDeref (⟨⟨[2, 4, 6, 8, 10], 0⟩, 1, 3⟩ : RcSlice Nat) ++
      rcDeref (⟨⟨[2, 4, 6, 8, 10], 0⟩, 3, 4⟩ : RcSlice Nat) =
      rcDeref (⟨⟨[2, 4, 6, 8, 10], 0⟩, 1, 4⟩ : RcSlice Nat) := by
  have h := (c7_split_conservation.1 Nat ⟨⟨[2, 4, 6, 8, 10], 0⟩, 1, 4⟩ 2
    (by decide) (by decide))
  exact ⟨h.1, h.2.1⟩

/-- Claim C8: `advance(v, incr)` returns `None` and leaves `v` completely
unchanged when `start + incr` overflows `usize` or would exceed `end`;
otherwise it moves `start` forward by exactly `incr` and returns the
now-excluded prefix (under the invariant, exactly `incr` elements from
the front of the view); no partial mutation is observable on the failure
path.  Proven for `RcSlice::advance` and generically for
`ArcSlice::advance`. -/
theorem c8_advance_strict :
    (∀ (α : Type u) (it : RcSlice α) (incr : Nat),
      (USIZE_MAX < it.start + incr ∨ it.end_ < it.start + incr →
        rcAdvance it incr = (none, it)) ∧
      (it.start + incr ≤ USIZE_MAX → it.start + incr ≤ it.end_ →
        rcAdvance it incr = (some ((rcDeref it).take incr),
          ⟨it.underlying, it.start + incr, it.end_⟩) ∧
        (SliceInv (listC α) it → ((rcDeref it).take incr).length = incr))) ∧
    (∀ (C α : Type u) (K : Container C α) (toList : C → List α),
      LawfulContainer K toList → ∀ (it : ArcSlice C) (incr : Nat),
      SliceInv K it →
      (USIZE_MAX < it.start + incr ∨ it.end_ < it.start + incr →
        arcAdvance K it incr = (none, it)) ∧
      (it.start + incr ≤ USIZE_MAX → it.start + incr ≤ it.end_ →
        arcAdvance K it incr = (some ((arcDeref K it).take incr),
          ⟨it.underlying, it.start + incr, it.end_⟩) ∧
        ((arcDeref K it).take incr).length = incr)) := by
  constructor
  · intro α it incr
    constructor
    · intro hfail
      unfold rcAdvance checkedAdd
      by_cases hov : it.start + incr ≤ USIZE_MAX
      · rw [if_pos hov]
        dsimp only
        rw [if_neg (by omega)]
      · rw [if_neg hov]
    · intro hov hincr
      have ht : (rcDeref it).take incr =
          sliceIndex it.underlying.container it.start (it.start + incr) := by
        unfold rcDeref
        exact sliceIndex_take (by omega)
      constructor
      · rw [ht]
        unfold rcAdvance checkedAdd
        rw [if_pos hov]
        dsimp only
        rw [if_pos hincr]
      · intro hinv
        have h2 : it.end_ ≤ it.underlying.container.length := hinv.2
        rw [ht, length_sliceIndex (by omega)]
        omega
  · intro C α K toList hK it incr hinv
    have h1 := hinv.1
    have h2 : it.end_ ≤ (toList it.underlying.container).length :=
      hK.len_eq _ ▸ hinv.2
    constructor
    · intro hfail
      unfold arcAdvance checkedAdd
      by_cases hov : it.start + incr ≤ USIZE_MAX
      · rw [if_pos hov]
        dsimp only
        rw [if_neg (by omega)]
      · rw [if_neg hov]
    · intro hov hincr
      have hget : K.get it.underlying.container it.start (it.start + incr) =
          some (sliceIndex (toList it.underlying.container) it.start
            (it.start + incr)) := by
        rw [hK.get_eq]
        exact sliceGet_of_le (Nat.le_add_right _ _) (by omega)
      have ht : (arcDeref K it).take incr =
          sliceIndex (toList it.underlying.container) it.start
            (it.start + incr) := by
        rw [arcDeref_eq hK hinv]
        exact sliceIndex_take (by omega)
      constructor
      · rw [ht]
        unfold arcAdvance checkedAdd
        rw [if_pos hov]
        dsimp only
        rw [if_pos hincr, hget]
      · rw [ht, length_sliceIndex (by omega)]
        omega

/-- Witness for C8 at concrete inputs: on the view `1..8` of
`[2, 4, 6, 8, 10, 12, 14, 16, 18]` (the crate's doctest), advancing by 2
succeeds shedding `[4, 6]`, and advancing the resulting `3..8` view by 6
fails leaving it unchanged. -/
theorem c8_advance_strict_witness :
    rcAdvance (⟨⟨[2, 4, 6, 8, 10, 12, 14, 16, 18], 0⟩, 1, 8⟩ : RcSlice Nat) 2 =
      (some [4, 6], ⟨⟨[2, 4, 6, 8, 10, 12, 14, 16, 18], 0⟩, 3, 8⟩) ∧
    rcAdvance (⟨⟨[2, 4, 6, 8, 10, 12, 14, 16, 18], 0⟩, 3, 8⟩ : RcSlice Nat) 6 =
      (none, ⟨⟨[2, 4, 6, 8, 10, 12, 14, 16, 18], 0⟩, 3, 8⟩) := by
  constructor
  · have h := ((c8_advance_strict.1 Nat ⟨⟨[2, 4, 6, 8, 10, 12, 14, 16, 18], 0⟩, 1, 8⟩
      2).2 (by decide) (by decide)).1
    rw [h]
    decide
  · exact (c8_advance_strict.1 Nat ⟨⟨[2, 4, 6, 8, 10, 12, 14, 16, 18], 0⟩, 3, 8⟩
      6).1 (by decide)

/-- Claim C9: `saturating_advance(v, incr)` is total for every `incr`
(including `usize::MAX`): it clamps the new start to
`min(start.saturating_add(incr), end) ≤ end`, returns exactly the
(possibly empty) prefix actually excluded, and any `incr ≥ len(v)` leaves
`v` empty.  In the `ArcSlice` version the internal
`underlying.get(start..cut).unwrap()` is proven to never fail (the result
is always `some …`) for any container satisfying the contract. -/
theorem c9_saturating_advance_total :
    (∀ (α : Type u) (it : RcSlice α) (incr : Nat),
      SliceInv (listC α) it → it.end_ ≤ USIZE_MAX →
      rcSaturatingAdvance it incr =
        ((rcDeref it).take (min (satAdd it.start incr) it.end_ - it.start),
          ⟨it.underlying, min (satAdd it.start incr) it.end_, it.end_⟩) ∧
      (rcLen it ≤ incr → rcLen (rcSaturatingAdvance it incr).2 = 0)) ∧
    (∀ (C α : Type u) (K : Container C α) (toList : C → List α),
      LawfulContainer K toList → ∀ (it : ArcSlice C) (incr : Nat),
      SliceInv K it → it.end_ ≤ USIZE_MAX →
      arcSaturatingAdvance K it incr =
        some ((arcDeref K it).take (min (satAdd it.start incr) it.end_ - it.start),
          ⟨it.underlying, min (satAdd it.start incr) it.end_, it.end_⟩) ∧
      (arcLen it ≤ incr →
        arcLen (⟨it.underlying, min (satAdd it.start incr) it.end_,
          it.end_⟩ : ArcSlice C) = 0)) := by
  constructor
  · intro α it incr hinv he
    have h1 := hinv.1
    have h2 : it.end_ ≤ it.underlying.container.length := hinv.2
    have hcut1 : it.start ≤ min (satAdd it.start incr) it.end_ := by
      unfold satAdd
      omega
    have ht : (rcDeref it).take (min (satAdd it.start incr) it.end_ - it.start) =
        sliceIndex it.underlying.container it.start
          (min (satAdd it.start incr) it.end_) := by
      unfold rcDeref
      rw [sliceIndex_take (by omega)]
      congr 1
      omega
    constructor
    · unfold rcSaturatingAdvance
      dsimp only
      rw [ht]
    · intro hlen
      unfold rcLen at hlen ⊢
      show it.end_ - min (satAdd it.start incr) it.end_ = 0
      unfold satAdd
      omega
  · intro C α K toList hK it incr hinv he
    have h1 := hinv.1
    have h2 : it.end_ ≤ (toList it.underlying.container).length :=
      hK.len_eq _ ▸ hinv.2
    have hcut1 : it.start ≤ min (satAdd it.start incr) it.end_ := by
      unfold satAdd
      omega
    have hget : K.get it.underlying.container it.start
        (min (satAdd it.start incr) it.end_) =
        some (sliceIndex (toList it.underlying.container) it.start
          (min (satAdd it.start incr) it.end_)) := by
      rw [hK.get_eq]
      exact sliceGet_of_le hcut1 (by omega)
    have ht : (arcDeref K it).take (min (satAdd it.start incr) it.end_ - it.start) =
        sliceIndex (toList it.underlying.container) it.start
          (min (satAdd it.start incr) it.end_) := by
      rw [arcDeref_eq hK hinv, sliceIndex_take (by omega)]
      congr 1
      omega
    constructor
    · unfold arcSaturatingAdvance
      dsimp only
      rw [hget, ht]
    · intro hlen
      unfold arcLen at hlen ⊢
      dsimp only
      unfold satAdd
      omega

/-- Witness for C9 at a concrete input: advancing the view `1..4` of
`[2, 4, 6, 8, 10]` by `usize::MAX` sheds all of `[4, 6, 8]` and leaves
the view empty at `4..4`. -/
theorem c9_saturating_advance_total_witness :
    rcSaturatingAdvance (⟨⟨[2, 4, 6, 8, 10], 0⟩, 1, 4⟩ : RcSlice Nat)
        USIZE_MAX =
      ([4, 6, 8], ⟨⟨[2, 4, 6, 8, 10], 0⟩, 4, 4⟩) ∧
    rcLen (rcSaturatingAdvance (⟨⟨[2, 4, 6, 8, 10], 0⟩, 1, 4⟩ : RcSlice Nat)
      USIZE_MAX).2 = 0 := by
  have h := c9_saturating_advance_total.1 Nat ⟨⟨[2, 4, 6, 8, 10], 0⟩, 1, 4⟩
    USIZE_MAX (by decide) (by decide)
  constructor
  · rw [h.1]
    norm_num [satAdd, USIZE_MAX, rcDeref, sliceIndex]
  · exact h.2 (by decide)

/-- Claim C4 (counterexample): the claim says that after a successful
`shrink` the underlying container's length equals the view's length.  On
an inline (non-spilled) `SmallVec` `[2, 4, 6, 8, 10]` with inline
capacity 8, viewed at `1..4` and uniquely owned, `shrink` returns `true`
(success) yet the container still has length 5 while the view has length
3: the container declined to modify itself. -/
theorem c4_smallvec_inline_shrink_counterexample :
    (arcShrink (smallVecC 8) 1 9
      (⟨⟨⟨[2, 4, 6, 8, 10], false⟩, 0⟩, 1, 4⟩ : ArcSlice (SmallVec Nat))).1 =
      true ∧
    (smallVecC (α := Nat) 8).len
      ((arcShrink (smallVecC 8) 1 9
        (⟨⟨⟨[2, 4, 6, 8, 10], false⟩, 0⟩, 1, 4⟩ :
          ArcSlice (SmallVec Nat))).2).underlying.container = 5 ∧
    arcLen ((arcShrink (smallVecC 8) 1 9
      (⟨⟨⟨[2, 4, 6, 8, 10], false⟩, 0⟩, 1, 4⟩ :
        ArcSlice (SmallVec Nat))).2) = 3 := by
  decide

/-- Claim C4 (amended): for every view on which `shrink` returns `true`,
the sequence of elements visible through the view is the same after the
call as before it (for any container satisfying the contract); and the
underlying container's length equals the view's post-shrink length
whenever the container actually performed the compaction — always for
`Vec`, and for `SmallVec` whenever it had spilled to the heap.  (A
container may decline, as inline `SmallVec` does, leaving its length and
the view's range unchanged.) -/
theorem c4_shrink_success_preserves_view :
    (∀ (C α : Type u) (K : Container C α) (toList : C → List α),
      LawfulContainer K toList →
      ∀ (it it' : ArcSlice C) (strong freshId : Nat), SliceInv K it →
      arcShrink K strong freshId it = (true, it') →
      arcDeref K it' = arcDeref K it) ∧
    (∀ (α : Type u) (it it' : ArcSlice (List α)) (strong freshId : Nat),
      SliceInv (vecC α) it →
      arcShrink (vecC α) strong freshId it = (true, it') →
      (vecC α).len it'.underlying.container = arcLen it') ∧
    (∀ (α : Type u) (n : Nat) (it it' : ArcSlice (SmallVec α))
      (strong freshId : Nat), SliceInv (smallVecC n) it →
      it.underlying.container.spilled = true →
      arcShrink (smallVecC n) strong freshId it = (true, it') →
      (smallVecC (α := α) n).len it'.underlying.container = arcLen it') := by
  refine ⟨?_, ?_, ?_⟩
  · intro C α K toList hK it it' strong freshId hinv hsh
    obtain ⟨h1, h2⟩ := hinv
    unfold arcShrink at hsh
    split at hsh
    · exact absurd hsh (by simp)
    · split at hsh
      · exact absurd hsh (by simp)
      · split at hsh
        · dsimp only at hsh
          split at hsh
          · rename_i c' s' e' hm
            simp only [Prod.mk.injEq, true_and] at hsh
            subst hsh
            have hs := hK.shrink_sound _ _ _ _ _ _ h1 h2 hm
            unfold arcDeref
            dsimp only
            rw [hK.get_eq, hK.get_eq, hs]
          · simp only [Prod.mk.injEq, true_and] at hsh
            subst hsh
            rfl
        · exact absurd hsh (by simp)
  · intro α it it' strong freshId hinv hsh
    unfold arcShrink at hsh
    split at hsh
    · exact absurd hsh (by simp)
    · split at hsh
      · exact absurd hsh (by simp)
      · split at hsh
        · dsimp only at hsh
          simp only [vecC, vecShrinkToRange] at hsh
          simp only [Prod.mk.injEq, true_and] at hsh
          subst hsh
          show (retainRange it.start it.end_ 0
              (it.underlying.container.take it.end_)).length =
            (retainRange it.start it.end_ 0
              (it.underlying.container.take it.end_)).length - 0
          omega
        · exact absurd hsh (by simp)
  · intro α n it it' strong freshId hinv hsp hsh
    unfold arcShrink at hsh
    split at hsh
    · exact absurd hsh (by simp)
    · split at hsh
      · exact absurd hsh (by simp)
      · split at hsh
        · dsimp only at hsh
          split at hsh
          · rename_i c' s' e' hm
            simp only [smallVecC, smallVecShrinkToRange] at hm
            rw [hsp, if_neg (by decide)] at hm
            simp only [Option.some.injEq, Prod.mk.injEq] at hm
            obtain ⟨hc, hs0, he0⟩ := hm
            simp only [Prod.mk.injEq, true_and] at hsh
            subst hsh
            subst hc hs0 he0
            show (retainRange it.start it.end_ 0
                (it.underlying.container.data.take it.end_)).length =
              (retainRange it.start it.end_ 0
                (it.underlying.container.data.take it.end_)).length - 0
            omega
          · rename_i hm
            simp only [smallVecC, smallVecShrinkToRange] at hm
            rw [hsp, if_neg (by decide)] at hm
            cases hm
        · exact absurd hsh (by simp)

/-- Witness for the amended C4 at a concrete input: shrinking the
uniquely-owned view `1..4` of the `Vec` `[2, 4, 6, 8, 10, 12]` succeeds
as `(true, view 0..3 of [4, 6, 8])`; the visible elements are preserved
and the new container length equals the view length. -/
theorem c4_shrink_success_preserves_view_witness :
    arcDeref (vecC Nat) ⟨⟨[4, 6, 8], 9⟩, 0, 3⟩ =
      arcDeref (vecC Nat) ⟨⟨[2, 4, 6, 8, 10, 12], 0⟩, 1, 4⟩ ∧
    (vecC Nat).len
      ((⟨⟨[4, 6, 8], 9⟩, 0, 3⟩ : ArcSlice (List Nat))).underlying.container =
      arcLen (⟨⟨[4, 6, 8], 9⟩, 0, 3⟩ : ArcSlice (List Nat)) :=
  ⟨c4_shrink_success_preserves_view.1 (List Nat) Nat (vecC Nat) id
      (lawful_vecC Nat) ⟨⟨[2, 4, 6, 8, 10, 12], 0⟩, 1, 4⟩ ⟨⟨[4, 6, 8], 9⟩, 0, 3⟩
      1 9 (by decide) (by decide),
    c4_shrink_success_preserves_view.2.1 Nat ⟨⟨[2, 4, 6, 8, 10, 12], 0⟩, 1, 4⟩
      ⟨⟨[4, 6, 8], 9⟩, 0, 3⟩ 1 9 (by decide) (by decide)⟩

/-- Claim C5 (amended): `get_mut(view)` returns the sub-slice over
`[start, end)` iff the view's handle is the only outstanding pointer to
the allocation — strong count exactly one AND no outstanding weak
references (this is `Rc::get_mut`/`Arc::get_mut`'s documented rule);
otherwise it returns `None` and the view is untouched (`get_mut` never
modifies the view's fields).  With two live view handles (strong count
at least 2), `get_mut` returns `None` and `shrink` fails returning the
view unchanged; after dropping one handle (strong count 1, no weak
references), `get_mut` succeeds, and `shrink` succeeds provided the
container is shrinkable and the view does not already span it (shown for
`Vec`). -/
theorem c5_get_mut_uniqueness :
    (∀ (C α : Type u) (K : Container C α) (toList : C → List α),
      LawfulContainer K toList → ∀ (strong weak : Nat) (it : ArcSlice C),
      SliceInv K it →
      arcGetMut K strong weak it =
        if strong = 1 ∧ weak = 0 then some (arcDeref K it) else none) ∧
    (∀ (α : Type u) (strong weak : Nat) (it : RcSlice α),
      rcGetMut strong weak it =
        if strong = 1 ∧ weak = 0 then some (rcDeref it) else none) ∧
    (∀ (C α : Type u) (K : Container C α) (strong weak freshId : Nat)
      (it : ArcSlice C), 2 ≤ strong →
      arcGetMut K strong weak it = none ∧
      arcShrink K strong freshId it = (false, it)) ∧
    (∀ (α : Type u) (freshId : Nat) (it : ArcSlice (List α)),
      SliceInv (vecC α) it →
      ¬(it.start = 0 ∧ it.end_ = it.underlying.container.length) →
      arcGetMut (vecC α) 1 0 it = some (arcDeref (vecC α) it) ∧
      (arcShrink (vecC α) 1 freshId it).1 = true) := by
  refine ⟨?_, ?_, ?_, ?_⟩
  · intro C α K toList hK strong weak it hinv
    by_cases hu : strong = 1 ∧ weak = 0
    · rw [if_pos hu]
      unfold arcGetMut
      rw [if_pos hu, hK.get_eq, sliceGet_of_le hinv.1 (hK.len_eq _ ▸ hinv.2),
        arcDeref_eq hK hinv]
    · rw [if_neg hu]
      unfold arcGetMut
      rw [if_neg hu]
  · intro α strong weak it
    rfl
  · intro C α K strong weak freshId it h2strong
    constructor
    · unfold arcGetMut
      rw [if_neg (by omega)]
    · unfold arcShrink
      split
      · rfl
      · split
        · rfl
        · split
          · rename_i hstrong
            exact absurd hstrong (by omega)
          · rfl
  · intro α freshId it hinv hnotfull
    have h1 := hinv.1
    have h2 : it.end_ ≤ it.underlying.container.length := hinv.2
    have hd : arcDeref (vecC α) it =
        sliceIndex it.underlying.container it.start it.end_ :=
      arcDeref_eq (lawful_vecC α) hinv
    constructor
    · unfold arcGetMut
      rw [if_pos ⟨rfl, rfl⟩, hd]
      exact sliceGet_of_le h1 h2
    · have hnf : ¬(it.start = 0 ∧
          it.end_ = (vecC α).len it.underlying.container) := hnotfull
      unfold arcShrink
      rw [if_neg (by simp [vecC]), if_neg hnf, if_pos rfl]
      simp [vecC, vecShrinkToRange]

/-- Witness for the amended C5 at a concrete input: on the view `1..2`
of `Vec` `[1, 2, 3]`, with strong count 2 both `get_mut` and `shrink`
fail leaving the view unchanged; with strong count 1 and no weak
references `get_mut` returns the viewed elements and `shrink` succeeds. -/
theorem c5_get_mut_uniqueness_witness :
    (arcGetMut (vecC Nat) 2 0 ⟨⟨[1, 2, 3], 0⟩, 1, 2⟩ = none ∧
      arcShrink (vecC Nat) 2 9 ⟨⟨[1, 2, 3], 0⟩, 1, 2⟩ =
        (false, ⟨⟨[1, 2, 3], 0⟩, 1, 2⟩)) ∧
    arcGetMut (vecC Nat) 1 0 ⟨⟨[1, 2, 3], 0⟩, 1, 2⟩ =
      some (arcDeref (vecC Nat) ⟨⟨[1, 2, 3], 0⟩, 1, 2⟩) ∧
    (arcShrink (vecC Nat) 1 9 ⟨⟨[1, 2, 3], 0⟩, 1, 2⟩).1 = true :=
  ⟨c5_get_mut_uniqueness.2.2.1 (List Nat) Nat (vecC Nat) 2 0 9
      ⟨⟨[1, 2, 3], 0⟩, 1, 2⟩ (by decide),
    c5_get_mut_uniqueness.2.2.2 Nat 9 ⟨⟨[1, 2, 3], 0⟩, 1, 2⟩ (by decide)
      (by decide)⟩

/-- Claim C6: starting from a freshly constructed view over any container
satisfying the container contract, every sequence of public calls
(clone, split_at — panicking calls leave the receiver as it was —
try_split_at, split_off_before/after, advance, saturating_advance,
retract, saturating_retract, change_range, get_mut, shrink, following
either view produced by the splitting operations, with arbitrary
reference counts observed at each get_mut/shrink) preserves the invariant
`start ≤ end ≤ underlying.length`; since every prefix of a sequence is a
sequence, the invariant holds after every call, whether it succeeds or
fails. -/
theorem c6_invariant_preservation {C α : Type u} (K : Container C α)
    (toList : C → List α) (hK : LawfulContainer K toList) (h : Handle C)
    (sb eb : RBound) (ops : List SliceOp) :
    SliceInv K (ops.foldl (stepA K) (arcNew K h sb eb)) :=
  sliceInv_foldl hK ops (arcNew K h sb eb) (sliceInv_arcNew K h sb eb)

/-- Witness for C6 at a concrete input: a mixed sequence of calls —
including a failing advance, a successful shrink and a widening
change_range — over a `Vec` container, starting from `new(buffer, 1..4)`
on `[2, 4, 6, 8, 10]`. -/
theorem c6_invariant_preservation_witness :
    SliceInv (vecC Nat)
      (([SliceOp.advanceOp 1, SliceOp.advanceOp 100, SliceOp.retractOp 1,
        SliceOp.shrinkOp 1 9, SliceOp.changeRangeOp RBound.unbounded
          RBound.unbounded, SliceOp.saturatingAdvanceOp 50,
        SliceOp.splitAtLow 0, SliceOp.getMutOp 1 0] : List SliceOp).foldl
        (stepA (vecC Nat))
        (arcNew (vecC Nat) ⟨[2, 4, 6, 8, 10], 0⟩ (RBound.included 1)
          (RBound.excluded 4))) :=
  c6_invariant_preservation (vecC Nat) id (lawful_vecC Nat)
    ⟨[2, 4, 6, 8, 10], 0⟩ (RBound.included 1) (RBound.excluded 4) _
